import Mathlib

/- Verification development for the go-node rollup state-tracking core.
   Shallow embedding of the byte/bit utilities (package common), the ABI
   event lookup, the account tree store (package core) and the syncer
   event handlers (package listener), with theorems checking the spec. -/

set_option maxRecDepth 8000

namespace GoNode

/-!  Package common: byte and digit utilities (src/unnamed/part_000)  -/

/-- Embedding of common.ExtractBit (part_000 lines 38-41):
`r := num % int(math.Pow(10, float64(place))); return r / int(math.Pow(10, float64(place-1)))`.
Go `%` and `/` on int truncate toward zero, embedded as Int.tmod and
Int.tdiv; `math.Pow(10, k)` is the exact integer power for in-range
exponents. -/
def ExtractBit (num : Int) (place : Nat) : Int :=
  (Int.tmod num (10 ^ place)).tdiv (10 ^ (place - 1))

/-- Numeric value of a bit, as a decimal digit. -/
def bitVal (b : Bool) : Nat := if b then 1 else 0

/-- Value obtained by reading a root-to-leaf binary path string as a
decimal number (the Go code converts the path string with Atoi before
extracting digits): the bit i places from the right contributes
`bit * 10 ^ i`. -/
def pathToDecimal : List Bool → Nat
  | [] => 0
  | b :: rest => bitVal b * 10 ^ rest.length + pathToDecimal rest

/-- Embedding of common.UintTo2Byte (part_000 lines 9-16): write the
little-endian 4-byte encoding of a uint32 into a buffer and copy its
first two bytes.  Bytes are Nat values below 256. -/
def putUint32LE (a : Nat) : List Nat :=
  [a % 256, a / 256 % 256, a / 256 ^ 2 % 256, a / 256 ^ 3 % 256]

def UintTo2Byte (a : Nat) : List Nat :=
  (putUint32LE a).take 2

/-!  Package listener: ABI event lookup (src/unnamed/part_001)  -/

/-- An ABI event as far as EventByID inspects it: its ID bytes. -/
structure AbiEvent where
  name : String
  idBytes : List Nat
deriving DecidableEq, Repr

/-- Embedding of listener.EventByID (part_001 lines 311-318): iterate the
ABI object events (a Go map, here one linearisation of it as a list) and
return the first event whose ID bytes equal sigdata, or nil (none). -/
def EventByID : List AbiEvent → List Nat → Option AbiEvent
  | [], _ => none
  | e :: rest, sigdata =>
      if e.idBytes = sigdata then some e else EventByID rest sigdata

/-!  Supporting lemmas  -/

theorem pathToDecimal_lt (bits : List Bool) :
    pathToDecimal bits < 10 ^ bits.length := by
  induction bits with
  | nil => simp [pathToDecimal]
  | cons b rest ih =>
      simp only [pathToDecimal, List.length_cons]
      have hb : bitVal b ≤ 1 := by cases b <;> simp [bitVal]
      have h1 : bitVal b * 10 ^ rest.length ≤ 1 * 10 ^ rest.length :=
        Nat.mul_le_mul_right _ hb
      calc bitVal b * 10 ^ rest.length + pathToDecimal rest
          < bitVal b * 10 ^ rest.length + 10 ^ rest.length :=
            Nat.add_lt_add_left ih _
        _ ≤ 1 * 10 ^ rest.length + 10 ^ rest.length := by
            exact Nat.add_le_add_right h1 _
        _ ≤ 10 ^ (rest.length + 1) := by ring_nf; omega

theorem pathToDecimal_digit (bits : List Bool) (i : Nat) (hi : i < bits.length) :
    pathToDecimal bits / 10 ^ i % 10 = bitVal (bits.reverse.getD i false) := by
  induction bits with
  | nil => simp at hi
  | cons b rest ih =>
      simp only [pathToDecimal, List.reverse_cons]
      rcases Nat.lt_or_ge i rest.length with hlt | hge
      · have hpow : (10 : Nat) ^ rest.length
            = 10 ^ (rest.length - i - 1) * 10 * 10 ^ i := by
          rw [← pow_succ, ← pow_add]
          congr 1
          omega
        have hrw : bitVal b * 10 ^ rest.length + pathToDecimal rest
            = pathToDecimal rest
              + bitVal b * 10 ^ (rest.length - i - 1) * 10 * 10 ^ i := by
          rw [hpow]; ring
        rw [hrw, Nat.add_mul_div_right _ _ (pow_pos (by norm_num : (0:Nat) < 10) i),
          Nat.add_mul_mod_self_right, ih hlt]
        congr 1
        rw [List.getD_append _ _ _ _ (by simpa using hlt)]
      · have hi' : i = rest.length := by
          simp only [List.length_cons] at hi; omega
        subst hi'
        have hx : pathToDecimal rest / 10 ^ rest.length = 0 :=
          Nat.div_eq_of_lt (pathToDecimal_lt rest)
        rw [Nat.add_comm (bitVal b * 10 ^ rest.length) (pathToDecimal rest),
          Nat.add_mul_div_right _ _ (pow_pos (by norm_num : (0:Nat) < 10) rest.length),
          hx, Nat.zero_add]
        have hb : bitVal b % 10 = bitVal b := by cases b <;> simp [bitVal]
        rw [hb]
        have hgd : (rest.reverse ++ [b]).getD rest.length false = b := by
          rw [List.getD_append_right _ _ _ _ (by simp)]
          simp
        rw [hgd]

theorem extractBit_nat (n : Nat) (place : Nat) (h : 1 ≤ place) :
    ExtractBit (n : Int) place = ((n / 10 ^ (place - 1)) % 10 : Nat) := by
  have hcast : ((10 : Int) ^ place) = ((10 ^ place : Nat) : Int) := by
    push_cast; ring
  have hcast' : ((10 : Int) ^ (place - 1)) = ((10 ^ (place - 1) : Nat) : Int) := by
    push_cast; ring
  unfold ExtractBit
  rw [hcast, hcast', ← Int.ofNat_tmod, ← Int.ofNat_tdiv]
  norm_cast
  obtain ⟨k, rfl⟩ : ∃ k, place = k + 1 := ⟨place - 1, by omega⟩
  simp only [Nat.add_sub_cancel]
  rw [pow_succ]
  exact Nat.mod_mul_right_div_self n (10 ^ k) 10

/-!  Claim theorems over the common utilities  -/

/-- C8: despite its name, ExtractBit operates on decimal digits, not
binary bits: for every integer num and place at least 1 it computes the
Go truncated quotient of `num mod 10 ^ place` by `10 ^ (place - 1)`,
which for nonnegative num is the place-th decimal digit from the right;
on a path encoded as a binary bit-string it therefore agrees with the
binary bit, because each decimal digit of such a number is 0 or 1. -/
theorem C8_extractBit_decimal_digit (num : Int) (place : Nat) (h : 1 ≤ place) :
    ExtractBit num place = (Int.tmod num (10 ^ place)).tdiv (10 ^ (place - 1))
    ∧ (∀ n : Nat, ExtractBit (n : Int) place = ((n / 10 ^ (place - 1)) % 10 : Nat))
    ∧ (∀ bits : List Bool, place ≤ bits.length →
        ExtractBit (pathToDecimal bits : Int) place
          = (bitVal (bits.reverse.getD (place - 1) false) : Nat)) := by
  refine ⟨rfl, fun n => extractBit_nat n place h, fun bits hlen => ?_⟩
  rw [extractBit_nat _ place h, pathToDecimal_digit bits (place - 1) (by omega)]

/-- Witness for C8 at num = 472, place = 2 (digit 7) and at the binary
path string 10 (decimal value ten), place = 1 (rightmost bit 0). -/
theorem C8_witness :
    ExtractBit (472 : Int) 2 = 7
    ∧ ExtractBit (pathToDecimal [true, false] : Int) 1 = 0 := by
  constructor
  · have h := (C8_extractBit_decimal_digit 472 2 (by norm_num)).2.1 472
    norm_num at h
    exact h
  · have h := (C8_extractBit_decimal_digit 0 1 (by norm_num)).2.2
      [true, false] (by simp)
    simpa [bitVal] using h

/-- C9: EventByID is total over its inputs and signals absence by nil:
it returns the first iterated event whose ID bytes equal the signature
input when one exists, and none (nil, not an error or panic) when no
event matches. -/
theorem C9_eventByID_total (evs : List AbiEvent) (sig : List Nat) :
    (EventByID evs sig = none ↔ ∀ e ∈ evs, e.idBytes ≠ sig)
    ∧ (∀ e, EventByID evs sig = some e → e ∈ evs ∧ e.idBytes = sig) := by
  induction evs with
  | nil => simp [EventByID]
  | cons a rest ih =>
      by_cases ha : a.idBytes = sig
      · simp only [EventByID, if_pos ha]
        constructor
        · constructor
          · intro hcontra; cases hcontra
          · intro hall
            exact absurd ha (hall a (List.mem_cons_self a rest))
        · intro e he
          cases he
          exact ⟨List.mem_cons_self a rest, ha⟩
      · simp only [EventByID, if_neg ha]
        constructor
        · rw [ih.1]
          constructor
          · intro hrest e he
            rcases List.mem_cons.mp he with rfl | hmem
            · exact ha
            · exact hrest e hmem
          · intro hall e he
            exact hall e (List.mem_cons_of_mem a he)
        · intro e he
          obtain ⟨hmem, hid⟩ := ih.2 e he
          exact ⟨List.mem_cons_of_mem a hmem, hid⟩

/-- Witness for C9: a one-event ABI whose event does not match the
signature yields none, and a matching signature yields the event. -/
theorem C9_witness :
    EventByID [⟨"NewBatch", [1, 2]⟩] [3] = none
    ∧ ((⟨"NewBatch", [1, 2]⟩ : AbiEvent) ∈ ([⟨"NewBatch", [1, 2]⟩] : List AbiEvent)
        ∧ (⟨"NewBatch", [1, 2]⟩ : AbiEvent).idBytes = [1, 2]) := by
  constructor
  · exact (C9_eventByID_total [⟨"NewBatch", [1, 2]⟩] [3]).1.mpr (by decide)
  · exact (C9_eventByID_total [⟨"NewBatch", [1, 2]⟩] [1, 2]).2
      ⟨"NewBatch", [1, 2]⟩ (by decide)

/-- C10: UintTo2Byte silently truncates: it returns the two
least-significant bytes of the little-endian encoding of its uint32
argument, i.e. it encodes `a mod 2 ^ 16`, discarding the upper 16 bits
without any error for values at or above 65536. -/
theorem C10_uintTo2Byte_truncates (a : Nat) (hlt : a < 2 ^ 32) :
    UintTo2Byte a = [a % 2 ^ 16 % 256, a % 2 ^ 16 / 256]
    ∧ (∃ b0 b1, UintTo2Byte a = [b0, b1] ∧ b0 + 256 * b1 = a % 2 ^ 16)
    ∧ UintTo2Byte a = UintTo2Byte (a % 2 ^ 16) := by
  have he : ∀ x : Nat, UintTo2Byte x = [x % 256, x / 256 % 256] := fun x => rfl
  rw [he a, he (a % 2 ^ 16)]
  refine ⟨?_, ⟨a % 256, a / 256 % 256, rfl, ?_⟩, ?_⟩
  · simp only [List.cons.injEq, and_true]
    exact ⟨by omega, by omega⟩
  · omega
  · simp only [List.cons.injEq, and_true]
    exact ⟨by omega, by omega⟩

/-- Witness for C10 at a = 70000, which exceeds 65536: the output equals
the output for 70000 mod 65536 = 4464. -/
theorem C10_witness : UintTo2Byte 70000 = UintTo2Byte 4464 := by
  have h := (C10_uintTo2Byte_truncates 70000 (by norm_num)).2.2
  norm_num at h ⊢
  exact h

/-!  Package core: the account tree store (src/core/account.go).

A node path is the root-to-leaf list of branch bits (false = left child,
written 0 in the source's path strings; true = right child, written 1);
the empty path addresses the root.  The store is path-addressed: the
hash persisted at each path, none where no node exists.  Node hashes are
kept abstract through a hash-combining parameter.  -/

def NodeStore (α : Type) : Type := List Bool → Option α

/-- Modelled from the spec: core.GetParentPath (declared by the tree
utilities of this repository, not under src/): the parent of a node is
addressed by dropping the last bit of its path. -/
def GetParentPath (p : List Bool) : List Bool := p.dropLast

/-- Modelled from the spec: core.GetOtherChild (not under src/): the
sibling of a node is addressed by flipping the last bit of its path
(spec 4.1: the node obtained by flipping the last bit of the current
prefix). -/
def GetOtherChild (p : List Bool) : List Bool :=
  p.dropLast ++ [!(p.getLastD false)]

/-- Modelled from the spec: core.GetNthBitFromRight (not under src/):
bit index i counted from the right end of the path string; spec 4.1
combines the updated node with its stored sibling in this bit order. -/
def GetNthBitFromRight (p : List Bool) (i : Nat) : Bool :=
  p.reverse.getD i false

/-- Recursion core of DB.GetSiblings on the reversed (leaf-to-root)
path: at each level collect the node stored at the other child of the
current prefix, then continue from the parent prefix. -/
def getSiblingsAux {α : Type} (db : NodeStore α) : List Bool → Option (List α)
  | [] => some []
  | b :: rest =>
      match db (rest.reverse ++ [!b]), getSiblingsAux db rest with
      | some sib, some others => some (sib :: others)
      | _, _ => none

/-- Embedding of DB.GetSiblings (account.go lines 357-370): walk from
the target path up to the root; at each level look up the other child of
the current relative path and collect it; the result is in leaf-to-root
order.  A failed lookup fails the whole walk, as in the source. -/
def GetSiblings {α : Type} (db : NodeStore α) (p : List Bool) : Option (List α) :=
  getSiblingsAux db p.reverse

/-- Embedding of the root recomputation chain of DB.StoreLeaf
(account.go lines 274-320): starting from the stored node hash, combine
with each sibling in order; at step i the side comes from bit i from the
right of the path (isComputedRightSibling == 0, i.e. bit false: the
computed node is the left child and the parent hash is
hash computed sibling; bit true: hash sibling computed).  The final
value is what StoreLeaf writes as the new root
(UpdateRootNodeHashes). -/
def StoreLeafRoot {α : Type} (hash : α → α → α) (path : List Bool) :
    α → List α → Nat → α
  | h, [], _ => h
  | h, sib :: rest, i =>
      if GetNthBitFromRight path i = false then
        StoreLeafRoot hash path (hash h sib) rest (i + 1)
      else
        StoreLeafRoot hash path (hash sib h) rest (i + 1)

/-- The cross-level hash invariant of the store (spec section 3): the
node at path q holds the combined hash of its two children, which both
exist. -/
def consistentAt {α : Type} (hash : α → α → α) (db : NodeStore α)
    (q : List Bool) : Prop :=
  ∃ hl hr, db (q ++ [false]) = some hl ∧ db (q ++ [true]) = some hr
    ∧ db q = some (hash hl hr)

/-!  Supporting lemmas for the sibling round-trip  -/

theorem getSiblings_concat {α : Type} (db : NodeStore α) (q : List Bool) (b : Bool) :
    GetSiblings db (q ++ [b])
      = match db (q ++ [!b]), GetSiblings db q with
        | some sib, some others => some (sib :: others)
        | _, _ => none := by
  simp only [GetSiblings, List.reverse_append, List.reverse_cons,
    List.reverse_nil, List.nil_append, List.cons_append, getSiblingsAux,
    List.reverse_reverse]

theorem storeLeafRoot_concat {α : Type} (hash : α → α → α) (q : List Bool)
    (b : Bool) (sibs : List α) :
    ∀ (h : α) (i : Nat),
      StoreLeafRoot hash (q ++ [b]) h sibs (i + 1) = StoreLeafRoot hash q h sibs i := by
  induction sibs with
  | nil => intro h i; rfl
  | cons s rest ih =>
      intro h i
      have hbit : GetNthBitFromRight (q ++ [b]) (i + 1) = GetNthBitFromRight q i := by
        simp [GetNthBitFromRight, List.reverse_append]
      simp only [StoreLeafRoot, hbit]
      by_cases hb : GetNthBitFromRight q i = false
      · rw [if_pos hb, if_pos hb, ih]
      · rw [if_neg hb, if_neg hb, ih]

/-- C4: sibling proof round-trip.  For every path p stored in the tree,
folding the stored hash at p with the siblings returned by GetSiblings
in leaf-to-root order, taking the stored sibling on the side given by
each path bit (bit 0: the computed node is the left child; bit 1: the
right child), yields exactly the store's current root hash, provided
every ancestor hash is consistent with its children. -/
theorem C4_sibling_roundtrip {α : Type} (hash : α → α → α) (db : NodeStore α)
    (p : List Bool) (h : α) (sibs : List α)
    (hdb : db p = some h)
    (hsib : GetSiblings db p = some sibs)
    (hcons : ∀ k, k < p.length → consistentAt hash db (p.take k)) :
    db [] = some (StoreLeafRoot hash p h sibs 0) := by
  induction p using List.reverseRecOn generalizing h sibs with
  | nil =>
      simp only [GetSiblings, List.reverse_nil, getSiblingsAux,
        Option.some.injEq] at hsib
      subst hsib
      simpa [StoreLeafRoot] using hdb
  | append_singleton q b ih =>
      have hq : consistentAt hash db q := by
        have hx := hcons q.length (by simp)
        rwa [List.take_left] at hx
      obtain ⟨hl, hr, hfl, hfr, hparent⟩ := hq
      have hconsq : ∀ k, k < q.length → consistentAt hash db (q.take k) := by
        intro k hk
        have hx := hcons k (by simp; omega)
        rwa [List.take_append_of_le_length (by omega)] at hx
      have hbit0 : GetNthBitFromRight (q ++ [b]) 0 = b := by
        simp [GetNthBitFromRight, List.reverse_append]
      rw [getSiblings_concat] at hsib
      cases b with
      | false =>
          have hh : h = hl := by
            rw [hdb] at hfl
            exact Option.some_inj.mp hfl
          simp only [Bool.not_false] at hsib
          rw [hfr] at hsib
          cases hsq : GetSiblings db q with
          | none => rw [hsq] at hsib; cases hsib
          | some others =>
              rw [hsq] at hsib
              simp only [Option.some.injEq] at hsib
              subst hsib
              simp only [StoreLeafRoot, hbit0, if_pos rfl]
              rw [storeLeafRoot_concat, hh]
              exact ih (hash hl hr) others hparent hsq hconsq
      | true =>
          have hh : h = hr := by
            rw [hdb] at hfr
            exact Option.some_inj.mp hfr
          simp only [Bool.not_true] at hsib
          rw [hfl] at hsib
          cases hsq : GetSiblings db q with
          | none => rw [hsq] at hsib; cases hsib
          | some others =>
              rw [hsq] at hsib
              simp only [Option.some.injEq] at hsib
              subst hsib
              simp only [StoreLeafRoot, hbit0]
              rw [if_neg (by simp), storeLeafRoot_concat, hh]
              exact ih (hash hl hr) others hparent hsq hconsq

/-- A concrete combining function standing in for the node-pair hash in
witnesses. -/
def exampleHash (a b : Nat) : Nat := 100 * a + b + 7

/-- A concrete depth-2 consistent store with leaf hashes 1, 2, 3, 4. -/
def exampleDB : NodeStore Nat := fun p =>
  match p with
  | [] => some (exampleHash (exampleHash 1 2) (exampleHash 3 4))
  | [false] => some (exampleHash 1 2)
  | [true] => some (exampleHash 3 4)
  | [false, false] => some 1
  | [false, true] => some 2
  | [true, false] => some 3
  | [true, true] => some 4
  | _ => none

/-- Witness for C4 at the leaf path 01 of the concrete depth-2 store:
the recomputed root from the leaf hash 2 and its siblings equals the
stored root. -/
theorem C4_witness :
    exampleDB []
      = some (StoreLeafRoot exampleHash [false, true] 2 [1, exampleHash 3 4] 0) := by
  refine C4_sibling_roundtrip exampleHash exampleDB [false, true] 2
    [1, exampleHash 3 4] rfl rfl ?_
  intro k hk
  simp only [List.length_cons, List.length_nil] at hk
  interval_cases k
  · exact ⟨exampleHash 1 2, exampleHash 3 4, rfl, rfl, rfl⟩
  · exact ⟨1, 2, rfl, rfl, rfl⟩

/-!  Tree initialization (DB.InitBalancesTree) and pending-account
deletion (DB.DeletePendingAccount)  -/

inductive InitErr where
  | dimensionMismatch
  | storageWriteFailure
deriving DecidableEq, Repr

/-- Modelled from the spec: core.GenCoordinatorPath (declared by this
repository outside src/): the reserved coordinator path at the given
depth, the leftmost slot (all zero bits). -/
def GenCoordinatorPath (depth : Nat) : List Bool := List.replicate depth false

/-- Binary increment of a reversed (leaf-to-root) path; none when the
path is already the rightmost slot. -/
def incrPathAux : List Bool → Option (List Bool)
  | [] => none
  | false :: rest => some (true :: rest)
  | true :: rest => (incrPathAux rest).map (fun t => false :: t)

/-- Modelled from the spec: core.GetAdjacentNodePath (not under src/):
the path of the next tree slot in in-order adjacency (spec 4.1 assigns
canonical paths to the remaining genesis leaves by in-order
adjacency). -/
def GetAdjacentNodePath (p : List Bool) : Option (List Bool) :=
  (incrPathAux p.reverse).map List.reverse

/-- Path-assignment loop of DB.InitBalancesTree (account.go lines
190-201): walk the remaining genesis accounts, giving each the path
adjacent to the previous one; a failed adjacency step aborts. -/
def assignPaths {β : Type} (prev : List Bool) :
    List β → Option (List (List Bool × β))
  | [] => some []
  | g :: gs =>
      match GetAdjacentNodePath prev with
      | none => none
      | some nxt =>
          match assignPaths nxt gs with
          | none => none
          | some rest => some ((nxt, g) :: rest)

/-- One round of the merkelisation loop of DB.InitBalancesTree
(account.go lines 224-240): iterate the level's nodes two at a time and
create a parent node with the combined hash at the parent path.  An odd
node out has no right sibling (the source would fault reading it), so
the round fails. -/
def buildParents {α : Type} (hash : α → α → α) :
    List (List Bool × α) → Option (List (List Bool × α))
  | [] => some []
  | _ :: [] => none
  | (p1, h1) :: (_, h2) :: rest =>
      match buildParents hash rest with
      | none => none
      | some parents => some ((GetParentPath p1, hash h1 h2) :: parents)

/-- Bottom-up level construction of DB.InitBalancesTree (account.go
lines 215-247): from the leaf level at the given depth, repeatedly build
the parent level until a single root remains; returns every internal
node created. -/
def merkelise {α : Type} (hash : α → α → α) :
    Nat → List (List Bool × α) → Option (List (List Bool × α))
  | 0, _ => some []
  | d + 1, nodes =>
      match buildParents hash nodes with
      | none => none
      | some parents =>
          match merkelise hash d parents with
          | none => none
          | some above => some (parents ++ above)

/-- Embedding of DB.InitBalancesTree (account.go lines 173-251).  The
store is the table of persisted nodes (path and hash); the result pairs
the returned error, if any, with the table after the call.  The source
first compares the expected leaf count, 2 to the power depth computed
through math.Exp2 (exact for every depth whose count a slice can reach),
with the number of genesis accounts, returning the dimension mismatch
error before touching the store; otherwise it inserts the coordinator
account at the reserved path (InsertCoordinatorAccounts hashes its data,
account.go lines 416-421), bulk-inserts the remaining accounts at
in-order adjacent paths, and builds every internal level bottom-up.  All
other failure paths of the source (adjacency, bulk writes) are collapsed
into storageWriteFailure, an error distinct from dimensionMismatch. -/
def InitBalancesTree {α : Type} (hashLeaf : Nat → α) (hash : α → α → α)
    (depth : Nat) (genesisAccounts : List Nat)
    (db : List (List Bool × α)) : Option InitErr × List (List Bool × α) :=
  if 2 ^ depth ≠ genesisAccounts.length then (some .dimensionMismatch, db)
  else
    match genesisAccounts with
    | [] => (some .storageWriteFailure, db)
    | g0 :: rest =>
        match assignPaths (GenCoordinatorPath depth) rest with
        | none => (some .storageWriteFailure, db)
        | some assigned =>
            match merkelise hash depth
                ((GenCoordinatorPath depth, hashLeaf g0)
                  :: assigned.map (fun pr => (pr.1, hashLeaf pr.2))) with
            | none => (some .storageWriteFailure, db)
            | some internals =>
                (none, db ++ ((GenCoordinatorPath depth, hashLeaf g0)
                  :: assigned.map (fun pr => (pr.1, hashLeaf pr.2))) ++ internals)

/-- C5: tree initialization fails with DimensionMismatch exactly when
the dimensions disagree: the call returns the dimension mismatch error
if and only if the number of genesis leaves differs from 2 to the power
depth, and in that case no leaf is designated a path or persisted (the
store is unchanged). -/
theorem C5_initBalancesTree_dimension {α : Type} (hashLeaf : Nat → α)
    (hash : α → α → α) (depth : Nat) (gen : List Nat)
    (db : List (List Bool × α)) :
    ((InitBalancesTree hashLeaf hash depth gen db).1
        = some InitErr.dimensionMismatch ↔ gen.length ≠ 2 ^ depth)
    ∧ (gen.length ≠ 2 ^ depth →
        (InitBalancesTree hashLeaf hash depth gen db).2 = db) := by
  by_cases hd : 2 ^ depth ≠ gen.length
  · refine ⟨?_, fun _ => ?_⟩
    · simp only [InitBalancesTree, if_pos hd]
      exact ⟨fun _ hcon => hd hcon.symm, fun _ => trivial⟩
    · simp only [InitBalancesTree, if_pos hd]
  · push_neg at hd
    have hne : ¬ (2 ^ depth ≠ gen.length) := fun hcon => hcon hd
    have hrhs : ¬ (gen.length ≠ 2 ^ depth) := fun hcon => hcon hd.symm
    refine ⟨iff_of_false ?_ hrhs, fun hcontra => absurd hd.symm hcontra⟩
    intro habs
    simp only [InitBalancesTree, if_neg hne] at habs
    split at habs
    · have hpos : 0 < 2 ^ depth := pow_pos (by norm_num) depth
      simp only [List.length_nil] at hd
      rw [hd] at hpos
      exact Nat.lt_irrefl 0 hpos
    · split at habs
      · simp at habs
      · split at habs
        · simp at habs
        · simp at habs

/-- Witness for C5: a depth-1 initialization with three genesis leaves
instead of two fails with the dimension mismatch error and leaves the
store unchanged. -/
theorem C5_witness :
    (InitBalancesTree (fun n => n) exampleHash 1 [5, 6, 7]
        ([([], 0)] : List (List Bool × Nat))).1 = some InitErr.dimensionMismatch
    ∧ (InitBalancesTree (fun n => n) exampleHash 1 [5, 6, 7]
        ([([], 0)] : List (List Bool × Nat))).2 = [([], 0)] := by
  refine ⟨(C5_initBalancesTree_dimension _ _ _ _ _).1.mpr (by norm_num),
    (C5_initBalancesTree_dimension _ _ _ _ _).2 (by norm_num)⟩

/-!  Account records and pending-account deletion  -/

/-- Leaf status values, from the comments of core.UserAccount
(account.go lines 28-31): Pending 0, Active 1, InActive 2. -/
def STATUS_PENDING : Nat := 0

def STATUS_ACTIVE : Nat := 1

def STATUS_INACTIVE : Nat := 2

/-- A stored user-account record, with the fields DeletePendingAccount
and GetAccountByID inspect. -/
structure AccountRecord where
  accountID : Nat
  status : Nat
  data : Nat
deriving DecidableEq, Repr

inductive DelErr where
  | notFound
deriving DecidableEq, Repr

/-- Embedding of DB.DeletePendingAccount (account.go lines 434-440): it
issues a delete of the records with the given account id and Pending
status.  In gorm v1 a delete whose where clause matches no rows still
returns a nil error (RowsAffected is zero but Error stays nil); the
error branch of the source, which wraps any error as a not-found error,
fires only on storage-level failures, which the pure table model does
not have.  The embedding therefore removes every matching record and
always returns no error. -/
def DeletePendingAccount (db : List AccountRecord) (id : Nat) :
    Option DelErr × List AccountRecord :=
  (none, db.filter fun a => !(a.accountID == id && a.status == STATUS_PENDING))

/-- Counterexample to C7: on an empty store, where no leaf with id 5
exists in Pending status, DeletePendingAccount returns success (nil
error), not the claimed NotFound error. -/
theorem C7_counterexample :
    DeletePendingAccount [] 5 = (none, [])
    ∧ (DeletePendingAccount [] 5).1 ≠ some DelErr.notFound := by
  exact ⟨rfl, by decide⟩

/-- C7 amended: DeletePendingAccount removes every leaf with the given
id in Pending status when any exists, and when none exists it still
returns success (nil error) rather than a NotFound error; a NotFound
error arises only from a storage-level delete failure. -/
theorem C7_deletePendingAccount (db : List AccountRecord) (id : Nat) :
    (DeletePendingAccount db id).1 = none
    ∧ (∀ a, a ∈ (DeletePendingAccount db id).2
        ↔ a ∈ db ∧ ¬(a.accountID = id ∧ a.status = STATUS_PENDING)) := by
  refine ⟨rfl, fun a => ?_⟩
  simp only [DeletePendingAccount, List.mem_filter, Bool.not_eq_eq_eq_not,
    Bool.not_true, Bool.and_eq_false_imp, beq_iff_eq]
  constructor
  · rintro ⟨hmem, hcond⟩
    refine ⟨hmem, fun hand => ?_⟩
    have := hcond hand.1
    simp only [beq_eq_false_iff_ne, ne_eq] at this
    exact this hand.2
  · rintro ⟨hmem, hcond⟩
    refine ⟨hmem, fun hid => ?_⟩
    simp only [beq_eq_false_iff_ne, ne_eq]
    intro hst
    exact hcond ⟨hid, hst⟩

/-- Witness for C7 amended: deleting id 5 from a store holding a single
Pending leaf with id 5 removes it. -/
theorem C7_witness :
    ¬ ((⟨5, STATUS_PENDING, 9⟩ : AccountRecord)
        ∈ (DeletePendingAccount [⟨5, STATUS_PENDING, 9⟩] 5).2) := by
  intro hmem
  have h := ((C7_deletePendingAccount [⟨5, STATUS_PENDING, 9⟩] 5).2
    ⟨5, STATUS_PENDING, 9⟩).mp hmem
  exact h.2 ⟨rfl, rfl⟩

/-!  Package listener: the syncer event handlers (src/unnamed/part_001).

State roots, transaction roots, committer identities and hashes are
modelled as Nat values; the all-zero root sentinel ZEROROOT is 0.  -/

def ZEROROOT : Nat := 0

/-- core.BATCH_COMMITTED, the committed batch status constant (its
numeric value is declared outside src/ and is only ever compared with
itself here). -/
def BATCH_COMMITTED : Nat := 1

/-- A decoded transfer transaction, as the external transaction decoder
returns it (spec section 6): sender id, receiver id, amount. -/
structure Transfer where
  senderID : Nat
  receiverID : Nat
  amount : Nat
deriving DecidableEq, Repr

/-- A user account as the transaction applier sees it: id, status and
the decoded payload (balance and nonce). -/
structure SyncAccount where
  accountID : Nat
  status : Nat
  balance : Nat
  nonce : Nat
deriving DecidableEq, Repr

/-- Embedding of DB.GetAccountByID (account.go lines 390-396): the
record with the given account id in Active status; a not-found signal
when none exists. -/
def GetAccountByID (accounts : List SyncAccount) (id : Nat) : Option SyncAccount :=
  accounts.find? (fun a => a.accountID == id && a.status == STATUS_ACTIVE)

inductive ApplyErr where
  | unknownAccount
  | invalidTransaction
deriving DecidableEq, Repr

/-- One iteration of the transaction loop of Syncer.ApplyTxsFromBatch
(part_001 lines 257-299): look up the sender by id (GetAccountByID, a
not-found error on a missing or non-Active account, likewise for the
receiver when its verification data is built), compute the updated
sender and receiver payloads, and commit both leaf updates to the
store.  The payload arithmetic is modelled from the spec (4.4: debit
the sender and bump its nonce, credit the receiver; insufficient
balance fails the transaction), since bazooka.ApplyTx and
coreTx.Apply are declared outside src/.  A successful iteration
commits its two leaf updates immediately, before the next transaction
is examined. -/
def applyTransfer (accounts : List SyncAccount) (t : Transfer) :
    Except ApplyErr (List SyncAccount) :=
  match GetAccountByID accounts t.senderID with
  | none => .error .unknownAccount
  | some sender =>
      match GetAccountByID accounts t.receiverID with
      | none => .error .unknownAccount
      | some _ =>
          if sender.balance < t.amount then .error .invalidTransaction
          else
            .ok (accounts.map (fun a =>
              if a.accountID == t.senderID && a.status == STATUS_ACTIVE then
                { a with balance := a.balance - t.amount, nonce := a.nonce + 1 }
              else if a.accountID == t.receiverID && a.status == STATUS_ACTIVE then
                { a with balance := a.balance + t.amount }
              else a))

/-- Embedding of Syncer.ApplyTxsFromBatch (part_001 lines 243-301): an
empty batch is a no-op; otherwise the decoded transfers are applied in
array order, each transaction committing its leaf updates as it goes;
the first failing transaction returns its error immediately, with the
updates of the earlier transactions already committed and left in
place. -/
def ApplyTxsFromBatch (accounts : List SyncAccount) :
    List Transfer → Option ApplyErr × List SyncAccount
  | [] => (none, accounts)
  | t :: rest =>
      match applyTransfer accounts t with
      | .error e => (some e, accounts)
      | .ok accounts2 => ApplyTxsFromBatch accounts2 rest

/-- A batch record of the Batch Ledger, with the fields
Syncer.processNewBatch writes. -/
structure Batch where
  batchID : Nat
  stateRoot : Nat
  txRoot : Nat
  txsIncluded : List Transfer
  committer : Nat
  stakeAmount : Nat
  finalisesOn : Nat
  status : Nat
deriving DecidableEq, Repr

/-- A decoded NewBatch chain event; calldata holds the raw transactions
the external fetcher returns for the event transaction hash. -/
structure NewBatchEvent where
  index : Nat
  txroot : Nat
  updatedRoot : Nat
  committer : Nat
  calldata : List Transfer
deriving DecidableEq, Repr

/-- The syncer-visible state: the account tree leaves and the batch
ledger. -/
structure SyncState where
  accounts : List SyncAccount
  batches : List Batch
deriving DecidableEq, Repr

/-- The chain parameters processNewBatch and processDepositLeafMerged
read (spec section 6). -/
structure ChainParams where
  maxDepositSubTreeHeight : Nat
  stakeAmount : Nat
  finalisationTime : Nat
deriving DecidableEq, Repr

/-- Modelled from the spec: DB.GetBatchByIndex (declared outside src/;
spec 4.3 getByIndex): look the batch up by its chain-assigned index; the
not-found signal is how the reconciler distinguishes a never-seen batch
from an already-tracked one. -/
def GetBatchByIndex (batches : List Batch) (i : Nat) : Option Batch :=
  batches.find? (fun b => b.batchID == i)

/-- Modelled from the spec: DB.AddNewBatch (declared outside src/; spec
4.3 recordCommitted): append the new batch record to the ledger. -/
def AddNewBatch (batches : List Batch) (nb : Batch) : List Batch :=
  batches ++ [nb]

/-- Modelled from the spec: DB.CommitBatch (declared outside src/; spec
4.3): replace the ledger entry carrying this batch id with the rebuilt
record, whose status is Committed (forward-only transition). -/
def CommitBatch (batches : List Batch) (nb : Batch) : List Batch :=
  batches.map (fun b => if b.batchID == nb.batchID then nb else b)

inductive SyncErr where
  | applyFailed (e : ApplyErr)
deriving DecidableEq, Repr

/-- Transaction selection of Syncer.processNewBatch (part_001 lines
144-152): the raw transactions are fetched only when the event
transaction root differs from the zero-root sentinel; otherwise the
batch carries none. -/
def eventTxs (e : NewBatchEvent) : List Transfer :=
  if e.txroot == ZEROROOT then [] else e.calldata

/-- The newBatch literal both branches of Syncer.processNewBatch build
(part_001 lines 163-172 and 194-203): the chain-reported index, state
root, transaction root and committer, the fetched transactions, the
stake and finalisation parameters, and Committed status. -/
def newBatchRecord (params : ChainParams) (e : NewBatchEvent) : Batch :=
  { batchID := e.index
    stateRoot := e.updatedRoot
    txRoot := e.txroot
    txsIncluded := eventTxs e
    committer := e.committer
    stakeAmount := params.stakeAmount
    finalisesOn := params.finalisationTime
    status := BATCH_COMMITTED }

/-- Embedding of Syncer.processNewBatch (part_001 lines 117-206).  The
batch is looked up by index: when absent (first observation), the
transactions are applied (an apply error panics, the error case here)
and the batch is recorded as Committed; when present with a
non-Committed status, the rebuilt batch is committed without
reapplying transactions (the state-root comparison in this branch has
an empty body in the source and so is a no-op); when present and
already Committed, nothing happens at all.  The Bool result records
whether the ApplyTxsFromBatch path ran. -/
def processNewBatch (params : ChainParams) (s : SyncState) (e : NewBatchEvent) :
    Except SyncErr (SyncState × Bool) :=
  match GetBatchByIndex s.batches e.index with
  | none =>
      match ApplyTxsFromBatch s.accounts (eventTxs e) with
      | (some err, _) => .error (.applyFailed err)
      | (none, accounts2) =>
          .ok ({ accounts := accounts2
                 batches := AddNewBatch s.batches (newBatchRecord params e) }, true)
  | some b =>
      if b.status != BATCH_COMMITTED then
        .ok ({ accounts := s.accounts
               batches := CommitBatch s.batches (newBatchRecord params e) }, false)
      else
        .ok (s, false)

/-!  Ledger lookup lemmas  -/

theorem getBatchByIndex_addNew (batches : List Batch) (nb : Batch) (i : Nat)
    (hnone : GetBatchByIndex batches i = none) (hid : nb.batchID = i) :
    GetBatchByIndex (AddNewBatch batches nb) i = some nb := by
  unfold GetBatchByIndex AddNewBatch
  unfold GetBatchByIndex at hnone
  rw [List.find?_append, hnone]
  simp [List.find?_cons_of_pos, hid]

theorem getBatchByIndex_commit (batches : List Batch) (b nb : Batch) (i : Nat)
    (hfound : GetBatchByIndex batches i = some b) (hid : nb.batchID = i) :
    GetBatchByIndex (CommitBatch batches nb) i = some nb := by
  induction batches with
  | nil => simp [GetBatchByIndex] at hfound
  | cons hd tl ih =>
      unfold GetBatchByIndex CommitBatch
      unfold GetBatchByIndex at hfound
      unfold GetBatchByIndex CommitBatch at ih
      by_cases hh : hd.batchID = i
      · simp only [List.map_cons, if_pos (by simp [hh, hid] : (hd.batchID == nb.batchID) = true)]
        exact List.find?_cons_of_pos _ (by simp [hid])
      · have hcond : (hd.batchID == nb.batchID) = false := by
          simp [hid]
          exact hh
        simp only [List.map_cons, hcond, if_neg]
        rw [List.find?_cons_of_neg _ (by simp [hh])]
        rw [List.find?_cons_of_neg _ (by simp [hh])] at hfound
        exact ih hfound

/-- C1: redelivery of a NewBatch event is idempotent.  If processing a
NewBatch event succeeded and produced state s2 (so the batch's
transactions are applied locally and the batch is recorded with the
chain-reported root), then re-processing the same event finds the
batch already Committed in the ledger before any application, applies
no transactions (the apply flag is false, so no balance is
double-debited or double-credited), and returns exactly the same
state: the final account-tree state and root equal those of a single
application. -/
theorem C1_processNewBatch_idempotent (params : ChainParams) (s s2 : SyncState)
    (e : NewBatchEvent) (applied : Bool)
    (h : processNewBatch params s e = .ok (s2, applied)) :
    processNewBatch params s2 e = .ok (s2, false) := by
  rw [processNewBatch] at h
  cases hfind : GetBatchByIndex s.batches e.index with
  | none =>
      rw [hfind] at h
      rcases happ : ApplyTxsFromBatch s.accounts (eventTxs e) with ⟨ferr, facc⟩
      rw [happ] at h
      cases ferr with
      | some err => exact absurd h (by simp)
      | none =>
          simp only [Except.ok.injEq, Prod.mk.injEq] at h
          obtain ⟨hs, -⟩ := h
          subst hs
          rw [processNewBatch]
          have hfind2 : GetBatchByIndex
              (AddNewBatch s.batches (newBatchRecord params e)) e.index
                = some (newBatchRecord params e) :=
            getBatchByIndex_addNew _ _ _ hfind rfl
          simp only [hfind2]
          have hst : ((newBatchRecord params e).status != BATCH_COMMITTED) = false := by
            simp [newBatchRecord]
          rw [hst]
          simp
  | some b =>
      simp only [hfind] at h
      by_cases hst : (b.status != BATCH_COMMITTED) = true
      · rw [if_pos hst] at h
        simp only [Except.ok.injEq, Prod.mk.injEq] at h
        obtain ⟨hs, -⟩ := h
        subst hs
        rw [processNewBatch]
        have hfind2 : GetBatchByIndex
            (CommitBatch s.batches (newBatchRecord params e)) e.index
              = some (newBatchRecord params e) :=
          getBatchByIndex_commit _ b _ _ hfind rfl
        simp only [hfind2]
        have hst2 : ((newBatchRecord params e).status != BATCH_COMMITTED) = false := by
          simp [newBatchRecord]
        rw [hst2]
        simp
      · rw [if_neg hst] at h
        simp only [Except.ok.injEq, Prod.mk.injEq] at h
        obtain ⟨hs, -⟩ := h
        subst hs
        simp only [processNewBatch, hfind]
        rw [if_neg hst]

/-!  Concrete syncer states for the witnesses  -/

def accA : SyncAccount := ⟨1, STATUS_ACTIVE, 100, 0⟩

def accB : SyncAccount := ⟨2, STATUS_ACTIVE, 0, 0⟩

def tGood : Transfer := ⟨1, 2, 30⟩

def tBad : Transfer := ⟨7, 2, 5⟩

def exParams : ChainParams := ⟨4, 10, 100⟩

def exEvent : NewBatchEvent := ⟨0, 5, 77, 9, [tGood]⟩

def exState0 : SyncState := ⟨[accA, accB], []⟩

def exState1 : SyncState :=
  ⟨[⟨1, STATUS_ACTIVE, 70, 1⟩, ⟨2, STATUS_ACTIVE, 30, 0⟩],
   [⟨0, 77, 5, [tGood], 9, 10, 100, BATCH_COMMITTED⟩]⟩

/-- Witness for C1: a concrete first delivery applies the transfer and
records the batch; the redelivered event leaves the state untouched
with the apply path not taken. -/
theorem C1_witness :
    processNewBatch exParams exState1 exEvent = .ok (exState1, false) :=
  C1_processNewBatch_idempotent exParams exState0 exState1 exEvent true (by rfl)

/-!  C2: the committed-batch root check  -/

def exBatchC2 : Batch := ⟨1, 5, 0, [], 9, 10, 100, BATCH_COMMITTED⟩

def exStateC2 : SyncState := ⟨[], [exBatchC2]⟩

def exEventC2 : NewBatchEvent := ⟨1, 0, 7, 9, []⟩

/-- C2 on the code: a NewBatch event for a batch index already stored
with status Committed whose locally stored state root disagrees with
the chain-reported root is processed with no error and no root
comparison at all: the handler returns with the state unchanged and the
batch left Committed, surfacing nothing (the only root comparison in
the source sits in the non-Committed branch and has an empty body). -/
theorem C2_rootMismatch_unsurfaced :
    GetBatchByIndex exStateC2.batches exEventC2.index = some exBatchC2
    ∧ exBatchC2.status = BATCH_COMMITTED
    ∧ exBatchC2.stateRoot ≠ exEventC2.updatedRoot
    ∧ processNewBatch exParams exStateC2 exEventC2 = .ok (exStateC2, false) := by
  refine ⟨rfl, rfl, by decide, rfl⟩

/-!  C3: batch application is not all-or-nothing  -/

/-- Counterexample to C3: a batch of two transfers over a store with
accounts 1 (balance 100) and 2 (balance 0), where the first transfer
moves 30 from 1 to 2 and the second names the unknown sender 7.  The
call returns the unknown-account error, yet the store differs from the
initial one: the first transfer's debit, nonce bump and credit remain
committed. -/
theorem C3_counterexample :
    (ApplyTxsFromBatch [accA, accB] [tGood, tBad]).1 = some ApplyErr.unknownAccount
    ∧ (ApplyTxsFromBatch [accA, accB] [tGood, tBad]).2 ≠ [accA, accB]
    ∧ (ApplyTxsFromBatch [accA, accB] [tGood, tBad]).2
        = [⟨1, STATUS_ACTIVE, 70, 1⟩, ⟨2, STATUS_ACTIVE, 30, 0⟩] := by
  refine ⟨rfl, by decide, rfl⟩

/-- C3 amended: when applying any transaction of the batch fails, the
entire batch application returns an error at that transaction and
applies nothing further, but the leaf updates committed by the earlier
transactions of the list remain in the store (the state returned is the
one reached after the longest successful prefix, not the initial
state). -/
theorem C3_applyTxs_abort_keeps_earlier_updates (accounts : List SyncAccount)
    (txs : List Transfer) (e : ApplyErr)
    (h : (ApplyTxsFromBatch accounts txs).1 = some e) :
    ∃ pre t post, txs = pre ++ t :: post
      ∧ (ApplyTxsFromBatch accounts pre).1 = none
      ∧ applyTransfer (ApplyTxsFromBatch accounts pre).2 t = .error e
      ∧ (ApplyTxsFromBatch accounts txs).2 = (ApplyTxsFromBatch accounts pre).2 := by
  induction txs generalizing accounts with
  | nil => simp [ApplyTxsFromBatch] at h
  | cons t rest ih =>
      cases happ : applyTransfer accounts t with
      | error e2 =>
          have hrun : ApplyTxsFromBatch accounts (t :: rest) = (some e2, accounts) := by
            simp [ApplyTxsFromBatch, happ]
          have he : e2 = e := by
            rw [hrun] at h
            exact Option.some_inj.mp h
          subst he
          exact ⟨[], t, rest, rfl, rfl, happ, by rw [hrun]; rfl⟩
      | ok acc3 =>
          have hrun : ApplyTxsFromBatch accounts (t :: rest) = ApplyTxsFromBatch acc3 rest := by
            simp [ApplyTxsFromBatch, happ]
          rw [hrun] at h
          obtain ⟨pre, t2, post, heq, hpre, hfail, hstate⟩ := ih acc3 h
          have hstep : ∀ l, ApplyTxsFromBatch accounts (t :: l) = ApplyTxsFromBatch acc3 l := by
            intro l
            simp [ApplyTxsFromBatch, happ]
          refine ⟨t :: pre, t2, post, by rw [List.cons_append, heq], ?_, ?_, ?_⟩
          · rw [hstep pre]
            exact hpre
          · rw [hstep pre]
            exact hfail
          · rw [hrun, hstep pre]
            exact hstate

/-- Witness for C3 amended, at the two-transfer batch of the
counterexample: the failing transaction is the second one, and the
returned store is the one after the successful prefix. -/
theorem C3_witness :
    ∃ pre t post, ([tGood, tBad] : List Transfer) = pre ++ t :: post
      ∧ (ApplyTxsFromBatch [accA, accB] pre).1 = none
      ∧ applyTransfer (ApplyTxsFromBatch [accA, accB] pre).2 t
          = .error ApplyErr.unknownAccount
      ∧ (ApplyTxsFromBatch [accA, accB] [tGood, tBad]).2
          = (ApplyTxsFromBatch [accA, accB] pre).2 :=
  C3_applyTxs_abort_keeps_earlier_updates [accA, accB] [tGood, tBad]
    ApplyErr.unknownAccount (by rfl)

/-!  C6: deposit-leaf merges and the finalisation trigger  -/

/-- The deposit accumulator (spec 4.2 and section 3): current merge
height and current combined root. -/
structure DepositAccumulator where
  height : Nat
  root : Nat
deriving DecidableEq, Repr

inductive DepErr where
  | heightExceeded
deriving DecidableEq, Repr

/-- Modelled from the spec: DB.OnDepositLeafMerge (declared outside
src/; spec 4.2 mergeLeaf): combine two adjacent pending leaves or
subtree roots, incrementing the accumulator height by one level and
adopting the chain-reported new root; fails with HeightExceeded when
the new height would exceed maxDepositSubTreeHeight.  Returns the new
height alongside, as the source's call site receives it. -/
def OnDepositLeafMerge (maxHeight : Nat) (acc : DepositAccumulator)
    (newRoot : Nat) : Except DepErr (Nat × DepositAccumulator) :=
  if maxHeight < acc.height + 1 then .error .heightExceeded
  else .ok (acc.height + 1, { height := acc.height + 1, root := newRoot })

/-- A decoded DepositLeafMerged chain event. -/
structure DepositLeafMergedEvent where
  leftLeaf : Nat
  rightLeaf : Nat
  newRoot : Nat
deriving DecidableEq, Repr

/-- Embedding of Syncer.processDepositLeafMerged (part_001 lines
47-85): merge the incoming leaf into the deposit accumulator (a failed
merge panics, the error case here); then, exactly when the height
returned by the merge equals MaxDepositSubTreeHeight from the chain
parameters, send the deposit finalisation transaction
(SendDepositFinalisationTx).  The Bool result records whether that
finalize submission was triggered. -/
def processDepositLeafMerged (params : ChainParams) (acc : DepositAccumulator)
    (ev : DepositLeafMergedEvent) : Except DepErr (DepositAccumulator × Bool) :=
  match OnDepositLeafMerge params.maxDepositSubTreeHeight acc ev.newRoot with
  | .error err => .error err
  | .ok (newheight, acc2) =>
      .ok (acc2, newheight == params.maxDepositSubTreeHeight)

/-- C6: on a DepositLeafMerged event the reconciler triggers the
deposit-finalisation submission if and only if the accumulator height
resulting from the merge equals maxDepositSubTreeHeight: below that
height the merge succeeds without a submission, at exactly that height
it submits, and beyond it the merge fails with HeightExceeded and never
submits. -/
theorem C6_finalisation_iff_max_height (params : ChainParams)
    (acc : DepositAccumulator) (ev : DepositLeafMergedEvent) :
    (∀ acc2 sent, processDepositLeafMerged params acc ev = .ok (acc2, sent) →
        ((sent = true ↔ acc.height + 1 = params.maxDepositSubTreeHeight)
          ∧ acc2.height = acc.height + 1))
    ∧ (processDepositLeafMerged params acc ev = .error DepErr.heightExceeded
        ↔ params.maxDepositSubTreeHeight < acc.height + 1) := by
  unfold processDepositLeafMerged OnDepositLeafMerge
  by_cases hlt : params.maxDepositSubTreeHeight < acc.height + 1
  · rw [if_pos hlt]
    refine ⟨fun acc2 sent hcon => absurd hcon (by simp), by simp [hlt]⟩
  · rw [if_neg hlt]
    refine ⟨fun acc2 sent hok => ?_, by simp [hlt]⟩
    simp only [Except.ok.injEq, Prod.mk.injEq] at hok
    obtain ⟨hacc, hsent⟩ := hok
    subst hacc
    constructor
    · rw [← hsent]
      simp
    · rfl

/-- Witness for C6 at an accumulator of height 3 with
maxDepositSubTreeHeight 4: the merge reaches height 4 and the
finalisation submission fires. -/
theorem C6_witness :
    ((true = true ↔ 3 + 1 = exParams.maxDepositSubTreeHeight)
      ∧ (⟨4, 9⟩ : DepositAccumulator).height = 3 + 1) :=
  (C6_finalisation_iff_max_height exParams ⟨3, 0⟩ ⟨1, 2, 9⟩).1 ⟨4, 9⟩ true (by rfl)

end GoNode
